import Mathlib

/-!
Shallow embedding of `AstarSearching/search.py`: a generic graph-search
loop (`generic_search`) driven by pluggable graph and frontier objects,
the `ExplicitGraph` reference implementation, and the `print_actions`
formatter.

Modelling conventions:
* Python generators / lazy sequences are modelled as finite lists.
* A frontier object is modelled as a state type `σ` threaded through an
  `add` operation and a `next` operation (the produce-one step of the
  frontier's iterator).
* The possibly non-terminating search loop is modelled as a
  fuel-indexed function returning `none` when no normal return happens
  within `fuel` iterations (non-termination or a Python runtime error)
  and `some r` when the Python function returns `r` (where `r = none`
  is Python's `None`, the no-solution sentinel).
* Python numbers (arc costs) are modelled as `Int`; Python `assert`
  failures and `raise` are modelled with `Except`.
-/

namespace AstarSearching

/-- Translation of the `Arc` namedtuple: one graph transition.  `tail`
is an `Option` because the synthetic seed arcs use Python `None`. -/
structure Arc (α : Type) where
  tail : Option α
  head : α
  label : String
  cost : Int
  deriving DecidableEq, Repr

/-- Translation of the abstract `Graph` class: the three mandatory
operations, with the lazy sequences `starting_nodes` and
`outgoing_arcs` modelled as lists. -/
structure Graph (α : Type) where
  starting_nodes : List α
  is_goal : α → Bool
  outgoing_arcs : α → List (Arc α)

/-- Translation of the default `Graph.estimated_cost_to_goal` method,
which raises `NotImplementedError` for every node. -/
def Graph.estimated_cost_to_goal (_g : Graph α) (_node : α) : Except String Int :=
  Except.error "NotImplementedError"

/-- A frontier object: a mutable collection of paths modelled as a
state type `σ` with `add` (admit one path) and `next` (the
produce-one step of the iterator: `some (p, s)` yields path `p`,
leaving the frontier in state `s`; `none` means exhausted). -/
structure Frontier (α σ : Type) where
  add : σ → List (Arc α) → σ
  next : σ → Option (List (Arc α) × σ)

/-- The frontier contract: there is an abstraction of the state to a
multiset of resident paths such that `add` inserts one path, `next`
produces a resident path and removes exactly it, and production is
exhausted only when no path is resident. -/
structure IsLawfulFrontier [DecidableEq α] (F : Frontier α σ)
    (contents : σ → Multiset (List (Arc α))) : Prop where
  add_spec : ∀ s p, contents (F.add s p) = p ::ₘ contents s
  next_mem : ∀ s p s', F.next s = some (p, s') → p ∈ contents s
  next_spec : ∀ s p s', F.next s = some (p, s') → contents s' = (contents s).erase p
  next_none : ∀ s, F.next s = none → contents s = 0

/-- The one-arc seed path `(Arc(None, node, "no action", 0),)` that
`generic_search` adds for each starting node. -/
def seedPath (node : α) : List (Arc α) :=
  [⟨none, node, "no action", 0⟩]

/-- The frontier additions performed by one `for`-loop of
`generic_search`: add each of the listed paths in order. -/
def addAll (F : Frontier α σ) (s : σ) (ps : List (List (Arc α))) : σ :=
  ps.foldl F.add s

/-- The `for path in frontier` loop of `generic_search`, with fuel.
An empty produced path would make Python's `path[-1]` raise, which is
modelled (like running out of fuel) as the abnormal result `none`. -/
def searchLoop (g : Graph α) (F : Frontier α σ) :
    Nat → σ → Option (Option (List (Arc α)))
  | 0, _ => none
  | fuel + 1, s =>
    match F.next s with
    | none => some none
    | some (path, s') =>
      match path.getLast? with
      | none => none
      | some lastArc =>
        if g.is_goal lastArc.head then some (some path)
        else searchLoop g F fuel
          (addAll F s' ((g.outgoing_arcs lastArc.head).map (fun a => path ++ [a])))

/-- Translation of `generic_search`: seed the frontier with one seed
path per starting node, then run the loop. -/
def generic_search (g : Graph α) (F : Frontier α σ) (s₀ : σ) (fuel : Nat) :
    Option (Option (List (Arc α))) :=
  searchLoop g F fuel (addAll F s₀ (g.starting_nodes.map seedPath))

/-- Instrumented version of the search loop: additionally returns the
list of paths passed to `frontier.add` and the list of nodes that were
goal-tested, in order.  The control flow is identical to `searchLoop`. -/
def searchLoopT (g : Graph α) (F : Frontier α σ) :
    Nat → σ → Option (Option (List (Arc α))) × List (List (Arc α)) × List α
  | 0, _ => (none, [], [])
  | fuel + 1, s =>
    match F.next s with
    | none => (some none, [], [])
    | some (path, s') =>
      match path.getLast? with
      | none => (none, [], [])
      | some lastArc =>
        if g.is_goal lastArc.head then (some (some path), [], [lastArc.head])
        else
          let exts := (g.outgoing_arcs lastArc.head).map (fun a => path ++ [a])
          let r := searchLoopT g F fuel (addAll F s' exts)
          (r.1, exts ++ r.2.1, lastArc.head :: r.2.2)

/-- Instrumented `generic_search`: result, all paths passed to
`frontier.add` (seeds first), and all goal-tested nodes. -/
def genericSearchT (g : Graph α) (F : Frontier α σ) (s₀ : σ) (fuel : Nat) :
    Option (Option (List (Arc α))) × List (List (Arc α)) × List α :=
  let seeds := g.starting_nodes.map seedPath
  let r := searchLoopT g F fuel (addAll F s₀ seeds)
  (r.1, seeds ++ r.2.1, r.2.2)

/-- Total cost of a path: the sum of the costs of its arcs. -/
def pathCost (p : List (Arc α)) : Int :=
  (p.map (fun a => a.cost)).sum

/-- An edge of an `ExplicitGraph`: Python tuples `(tail, head)` or
`(tail, head, cost)`, so the cost component is optional. -/
structure EGEdge (α : Type) where
  tail : α
  head : α
  costOpt : Option Int
  deriving DecidableEq, Repr

/-- The fields of an `ExplicitGraph` (the Python node set and goal set
are modelled as lists used only through membership). -/
structure ExplicitGraph (α : Type) where
  nodes : List α
  edge_list : List (EGEdge α)
  starting_list : List α
  goal_nodes : List α
  estimates : Option (List (α × Int))

/-- Translation of `ExplicitGraph.__init__`: the three assertions are
checked in order at construction time; a failing assertion raises
(modelled as `Except.error` with the assertion message). -/
def ExplicitGraph.make [DecidableEq α] (nodes : List α) (edge_list : List (EGEdge α))
    (starting_list : List α) (goal_nodes : List α)
    (estimates : Option (List (α × Int))) : Except String (ExplicitGraph α) :=
  if ∀ e ∈ edge_list, e.tail ∈ nodes ∧ e.head ∈ nodes then
    if ∀ n ∈ starting_list, n ∈ nodes then
      if ∀ n ∈ goal_nodes, n ∈ nodes then
        Except.ok ⟨nodes, edge_list, starting_list, goal_nodes, estimates⟩
      else Except.error "The goal states must be in nodes."
    else Except.error "The starting_states must be in nodes."
  else Except.error "edges must link two existing nodes!"

/-- Translation of `ExplicitGraph.starting_nodes`: yields the starting
list. -/
def ExplicitGraph.starting_nodes (g : ExplicitGraph α) : List α :=
  g.starting_list

/-- Translation of `ExplicitGraph.is_goal`: membership in the goal
set. -/
def ExplicitGraph.is_goal [DecidableEq α] (g : ExplicitGraph α) (node : α) : Bool :=
  decide (node ∈ g.goal_nodes)

/-- Translation of `ExplicitGraph.outgoing_arcs`: for each edge whose
tail is the given node (in edge-list order) yield an `Arc` with an
automatically generated label and the edge cost, defaulting to 1. -/
def ExplicitGraph.outgoing_arcs [DecidableEq α] [ToString α] (g : ExplicitGraph α)
    (node : α) : List (Arc α) :=
  g.edge_list.filterMap fun edge =>
    if edge.tail = node then
      some ⟨some edge.tail, edge.head,
        toString edge.tail ++ "->" ++ toString edge.head, edge.costOpt.getD 1⟩
    else none

/-- Package an `ExplicitGraph` as the `Graph` capability record used by
`generic_search`. -/
def ExplicitGraph.toGraph [DecidableEq α] [ToString α] (g : ExplicitGraph α) : Graph α :=
  ⟨g.starting_nodes, g.is_goal, g.outgoing_arcs⟩

/-- Translation of `print_actions`: the list of printed lines.  The
argument is `none` for the Python `None` sentinel; Python's
`if path:` is also false for an empty tuple, hence the catch-all. -/
def print_actions (path : Option (List (Arc α))) : List String :=
  match path with
  | some (a :: rest) =>
    ("Actions:" :: ((a :: rest).dropLast.drop 1).map (fun arc => "  " ++ arc.label ++ ","))
      ++ ["  " ++ ((a :: rest).getLastD a).label ++ ".",
        "Total Cost: " ++ toString (pathCost (a :: rest))]
  | _ => ["There is no solution!"]

/-- The formatter behaviour the specification claims (the action list
is the labels of all arcs except the seed arc), stated with the same
line formatting as the code; used to compare `print_actions` with the
claim. -/
def print_actions_claimed (path : Option (List (Arc α))) : List String :=
  match path with
  | some (a :: rest) =>
    ("Actions:" :: rest.dropLast.map (fun arc => "  " ++ arc.label ++ ","))
      ++ (match rest.getLast? with
          | some la => ["  " ++ la.label ++ "."]
          | none => [])
      ++ ["Total Cost: " ++ toString (pathCost (a :: rest))]
  | _ => ["There is no solution!"]

/-- Select a cheapest path: returns a path of minimal `pathCost` among
`best :: rest` (the earliest one on ties) and the remaining paths. -/
def selectMinPath (best : List (Arc α)) : List (List (Arc α)) → List (Arc α) × List (List (Arc α))
  | [] => (best, [])
  | q :: qs =>
    if pathCost q < pathCost best then
      let r := selectMinPath q qs
      (r.1, best :: r.2)
    else
      let r := selectMinPath best qs
      (r.1, q :: r.2)

/-- A concrete frontier (uniform-cost strategy): the state is the list
of resident paths; `next` produces a path of minimal total cost. -/
def cheapestFrontier (α : Type) : Frontier α (List (List (Arc α))) where
  add := fun s p => s ++ [p]
  next := fun s =>
    match s with
    | [] => none
    | p :: ps => some (selectMinPath p ps)

/-- The `{A, B, C}` graph of the specification's concrete scenario:
edges `(A,B,1)`, `(B,C,1)`, `(A,C,5)`, start `[A]`, goal `{C}`. -/
def gABC : ExplicitGraph String :=
  ⟨["A", "B", "C"], [⟨"A", "B", some 1⟩, ⟨"B", "C", some 1⟩, ⟨"A", "C", some 5⟩],
    ["A"], ["C"], none⟩

/-- The singleton graph of the specification's trivial scenario: node
set `{A}`, no edges, start `[A]`, goal `{A}`. -/
def gA : ExplicitGraph String :=
  ⟨["A"], [], ["A"], ["A"], none⟩

/-- A seed arc: tail `None`, label `"no action"`, cost `0`. -/
def IsSeedArc (a : Arc α) : Prop :=
  a.tail = none ∧ a.label = "no action" ∧ a.cost = 0

/-- Well-formed path (section 3 invariant): non-empty, starts with a
seed arc, and every adjacent pair of arcs is linked (the tail of the
later arc is the head of the earlier one). -/
def WellFormedPath (p : List (Arc α)) : Prop :=
  (∃ a, p.head? = some a ∧ IsSeedArc a) ∧
    List.Chain' (fun x y => y.tail = some x.head) p

/-! ### Basic lemmas about the embedding -/

theorem searchLoopT_fst (g : Graph α) (F : Frontier α σ) :
    ∀ (fuel : Nat) (s : σ), (searchLoopT g F fuel s).1 = searchLoop g F fuel s := by
  intro fuel
  induction fuel with
  | zero => intro s; rfl
  | succ n ih =>
    intro s
    simp only [searchLoopT, searchLoop]
    cases F.next s with
    | none => rfl
    | some ps =>
      obtain ⟨path, s'⟩ := ps
      cases hl : path.getLast? with
      | none => simp [hl]
      | some la =>
        by_cases hg : g.is_goal la.head <;> simp [hl, hg, ih]

theorem genericSearchT_fst (g : Graph α) (F : Frontier α σ) (s₀ : σ) (fuel : Nat) :
    (genericSearchT g F s₀ fuel).1 = generic_search g F s₀ fuel := by
  simp [genericSearchT, generic_search, searchLoopT_fst]

theorem contents_addAll [DecidableEq α] {F : Frontier α σ}
    {contents : σ → Multiset (List (Arc α))} (L : IsLawfulFrontier F contents) :
    ∀ (ps : List (List (Arc α))) (s : σ),
      contents (addAll F s ps) = ↑ps + contents s := by
  intro ps
  induction ps with
  | nil => intro s; simp [addAll]
  | cons p ps ih =>
    intro s
    have h : addAll F s (p :: ps) = addAll F (F.add s p) ps := rfl
    rw [h, ih, L.add_spec, Multiset.add_cons, ← Multiset.cons_coe, Multiset.cons_add]

theorem filterMap_if_eq_filter_map (p : β → Prop) [DecidablePred p] (f : β → γ)
    (l : List β) :
    (l.filterMap fun x => if p x then some (f x) else none) =
      (l.filter fun x => decide (p x)).map f := by
  induction l with
  | nil => rfl
  | cons x xs ih =>
    by_cases h : p x <;> simp [List.filterMap_cons, List.filter_cons, h, ih]

theorem next_of_contents_ne [DecidableEq α] {F : Frontier α σ}
    {contents : σ → Multiset (List (Arc α))} (L : IsLawfulFrontier F contents)
    (s : σ) (h : contents s ≠ 0) : ∃ p s', F.next s = some (p, s') := by
  cases hn : F.next s with
  | none => exact absurd (L.next_none _ hn) h
  | some ps =>
    obtain ⟨p, s'⟩ := ps
    exact ⟨p, s', rfl⟩

theorem selectMinPath_perm :
    ∀ (l : List (List (Arc α))) (b : List (Arc α)),
      (selectMinPath b l).1 ::ₘ ((selectMinPath b l).2 : Multiset (List (Arc α))) =
        b ::ₘ (l : Multiset (List (Arc α))) := by
  intro l
  induction l with
  | nil => intro b; rfl
  | cons q qs ih =>
    intro b
    by_cases h : pathCost q < pathCost b
    · simp only [selectMinPath, h, reduceIte, ← Multiset.cons_coe]
      rw [Multiset.cons_swap, ih q]
    · simp only [selectMinPath, h, reduceIte, ← Multiset.cons_coe]
      rw [Multiset.cons_swap, ih b, Multiset.cons_swap]

theorem selectMinPath_min :
    ∀ (l : List (List (Arc α))) (b q : List (Arc α)), (q = b ∨ q ∈ l) →
      pathCost (selectMinPath b l).1 ≤ pathCost q := by
  intro l
  induction l with
  | nil =>
    intro b q hq
    rcases hq with rfl | hq
    · exact le_refl _
    · exact absurd hq (List.not_mem_nil q)
  | cons x xs ih =>
    intro b q hq
    by_cases h : pathCost x < pathCost b
    · simp only [selectMinPath, h, reduceIte]
      rcases hq with hq | hq
      · rw [hq]
        exact le_of_lt (lt_of_le_of_lt (ih x x (Or.inl rfl)) h)
      · rcases List.mem_cons.mp hq with hq | hq
        · rw [hq]
          exact ih x x (Or.inl rfl)
        · exact ih x q (Or.inr hq)
    · simp only [selectMinPath, h, reduceIte]
      rcases hq with hq | hq
      · rw [hq]
        exact ih b b (Or.inl rfl)
      · rcases List.mem_cons.mp hq with hq | hq
        · rw [hq]
          exact le_trans (ih b b (Or.inl rfl)) (not_lt.mp h)
        · exact ih b q (Or.inr hq)

theorem cheapestFrontier_lawful [DecidableEq α] :
    IsLawfulFrontier (cheapestFrontier α)
      (fun s => (s : Multiset (List (Arc α)))) where
  add_spec := by
    intro s p
    show ((s ++ [p] : List _) : Multiset _) = p ::ₘ ↑s
    rw [← Multiset.coe_add, add_comm, Multiset.coe_singleton, Multiset.singleton_add]
  next_mem := by
    intro s p s' hn
    cases s with
    | nil => exact absurd hn (by simp [cheapestFrontier])
    | cons x xs =>
      have hx : selectMinPath x xs = (p, s') := by
        simpa [cheapestFrontier] using hn
      have hperm := selectMinPath_perm xs x
      rw [hx] at hperm
      show p ∈ ((x :: xs : List _) : Multiset _)
      rw [← Multiset.cons_coe, ← hperm]
      exact Multiset.mem_cons_self _ _
  next_spec := by
    intro s p s' hn
    cases s with
    | nil => exact absurd hn (by simp [cheapestFrontier])
    | cons x xs =>
      have hx : selectMinPath x xs = (p, s') := by
        simpa [cheapestFrontier] using hn
      have hperm := selectMinPath_perm xs x
      rw [hx] at hperm
      show (s' : Multiset _) = ((x :: xs : List _) : Multiset _).erase p
      rw [← Multiset.cons_coe, ← hperm, Multiset.erase_cons_head]
  next_none := by
    intro s hn
    cases s with
    | nil => rfl
    | cons x xs => exact absurd hn (by simp [cheapestFrontier])

/-- A frontier produces paths in cheapest-first order: any produced
path has minimal total cost among the resident paths. -/
def ProducesCheapestFirst [DecidableEq α] (F : Frontier α σ)
    (contents : σ → Multiset (List (Arc α))) : Prop :=
  ∀ s p s', F.next s = some (p, s') →
    ∀ q ∈ contents s, pathCost p ≤ pathCost q

theorem cheapestFrontier_cheapestFirst [DecidableEq α] :
    ProducesCheapestFirst (cheapestFrontier α)
      (fun s => (s : Multiset (List (Arc α)))) := by
  intro s p s' hn q hq
  cases s with
  | nil => exact absurd hn (by simp [cheapestFrontier])
  | cons x xs =>
    have hx : selectMinPath x xs = (p, s') := by
      simpa [cheapestFrontier] using hn
    have := selectMinPath_min xs x q (by simpa using hq)
    rw [hx] at this
    exact this

theorem searchLoop_inv [DecidableEq α] {g : Graph α} {F : Frontier α σ}
    {contents : σ → Multiset (List (Arc α))} (L : IsLawfulFrontier F contents)
    (P : List (Arc α) → Prop)
    (hclosed : ∀ p la, P p → p.getLast? = some la →
      ∀ a ∈ g.outgoing_arcs la.head, P (p ++ [a])) :
    ∀ (fuel : Nat) (s : σ) (sol : List (Arc α)),
      (∀ p ∈ contents s, P p) →
      searchLoop g F fuel s = some (some sol) →
      P sol ∧ ∃ la, sol.getLast? = some la ∧ g.is_goal la.head = true := by
  intro fuel
  induction fuel with
  | zero =>
    intro s sol _ h
    exact absurd h (by simp [searchLoop])
  | succ n ih =>
    intro s sol hs h
    rw [searchLoop] at h
    cases hn : F.next s with
    | none => rw [hn] at h; exact absurd h (by simp)
    | some ps =>
      obtain ⟨p, s'⟩ := ps
      rw [hn] at h
      simp only [] at h
      have hpmem : p ∈ contents s := L.next_mem _ _ _ hn
      cases hl : p.getLast? with
      | none => rw [hl] at h; exact absurd h (by simp)
      | some la =>
        rw [hl] at h
        simp only [] at h
        by_cases hg : g.is_goal la.head = true
        · rw [if_pos hg] at h
          have hsol : p = sol := by
            injection h with h'
            injection h'
          rw [← hsol]
          exact ⟨hs p hpmem, la, hl, hg⟩
        · rw [if_neg hg] at h
          refine ih _ sol ?_ h
          intro q hq
          rw [contents_addAll L] at hq
          rcases Multiset.mem_add.mp hq with hq | hq
          · rw [Multiset.mem_coe, List.mem_map] at hq
            obtain ⟨a, ha, hqa⟩ := hq
            rw [← hqa]
            exact hclosed p la (hs p hpmem) hl a ha
          · rw [L.next_spec _ _ _ hn] at hq
            exact hs q (Multiset.mem_of_mem_erase hq)

/-! ### Claim theorems: construction, arcs, formatter, heuristic -/

/-- C5: `ExplicitGraph` construction succeeds exactly when every edge
endpoint, every starting node and every goal node is a member of the
node set; otherwise it fails at construction time with a validation
error. -/
theorem explicitGraph_make_isOk_iff [DecidableEq α] (nodes : List α)
    (edge_list : List (EGEdge α)) (starting_list goal_nodes : List α)
    (estimates : Option (List (α × Int))) :
    (ExplicitGraph.make nodes edge_list starting_list goal_nodes estimates).isOk = true ↔
      ((∀ e ∈ edge_list, e.tail ∈ nodes ∧ e.head ∈ nodes) ∧
        (∀ n ∈ starting_list, n ∈ nodes) ∧ (∀ n ∈ goal_nodes, n ∈ nodes)) := by
  unfold ExplicitGraph.make
  split_ifs <;> simp_all [Except.isOk, Except.toBool]

/-- Witness for C5: the `{A, B, C}` scenario graph constructs
successfully. -/
theorem explicitGraph_make_isOk_iff_witness :
    (ExplicitGraph.make ["A", "B", "C"]
      [⟨"A", "B", some 1⟩, ⟨"B", "C", some 1⟩, ⟨"A", "C", some 5⟩]
      ["A"] ["C"] none).isOk = true :=
  (explicitGraph_make_isOk_iff _ _ _ _ _).mpr (by decide)

/-- C6: `outgoing_arcs n` yields, in edge-list order, exactly one arc
per edge whose tail is `n`, carrying that edge's tail and head, the
synthesized label, and the edge's cost component, defaulting to 1. -/
theorem explicitGraph_outgoing_arcs_spec [DecidableEq α] [ToString α]
    (g : ExplicitGraph α) (n : α) :
    g.outgoing_arcs n =
      (g.edge_list.filter fun e => decide (e.tail = n)).map
        (fun e => ⟨some e.tail, e.head,
          toString e.tail ++ "->" ++ toString e.head, e.costOpt.getD 1⟩) := by
  unfold ExplicitGraph.outgoing_arcs
  exact filterMap_if_eq_filter_map (fun e => e.tail = n) _ g.edge_list

/-- Witness for C6: the arcs leaving `A` in the scenario graph. -/
theorem explicitGraph_outgoing_arcs_spec_witness :
    gABC.outgoing_arcs "A" =
      (gABC.edge_list.filter fun e => decide (e.tail = "A")).map
        (fun e => ⟨some e.tail, e.head,
          toString e.tail ++ "->" ++ toString e.head, e.costOpt.getD 1⟩) :=
  explicitGraph_outgoing_arcs_spec gABC "A"

/-- Counterexample to C9: on the one-arc seed path (a legitimate
solution when a starting node is already a goal), `print_actions`
prints the seed arc's label "no action", whereas the claimed output
(labels of all arcs except the seed) has no action lines at all. -/
theorem print_actions_seed_label_counterexample :
    print_actions (some [Arc.mk (none : Option String) "A" "no action" 0]) =
        ["Actions:", "  no action.", "Total Cost: 0"] ∧
      print_actions_claimed (some [Arc.mk (none : Option String) "A" "no action" 0]) =
        ["Actions:", "Total Cost: 0"] ∧
      print_actions (some [Arc.mk (none : Option String) "A" "no action" 0]) ≠
        print_actions_claimed (some [Arc.mk (none : Option String) "A" "no action" 0]) := by
  refine ⟨by decide, by decide, by decide⟩

/-- C9 (amended): on every solution path with at least two arcs the
formatter outputs exactly the labels of the arcs after the seed, in
order, and the total cost (the sum of all arc costs including the
seed's zero); on the no-solution sentinel it outputs the fixed
message. -/
theorem print_actions_eq_claimed (a b : Arc α) (rest : List (Arc α)) :
    print_actions (some (a :: b :: rest)) =
        print_actions_claimed (some (a :: b :: rest)) ∧
      print_actions (none : Option (List (Arc α))) = ["There is no solution!"] := by
  constructor
  · simp [print_actions, print_actions_claimed, List.dropLast_cons₂,
      List.getLastD_cons, List.getLast?_cons]
  · rfl

/-- Witness for C9 (amended): the two-arc case on a concrete path. -/
theorem print_actions_eq_claimed_witness :
    print_actions
        (some [Arc.mk (none : Option String) "A" "no action" 0,
          Arc.mk (some "A") "B" "A->B" 1]) =
      print_actions_claimed
        (some [Arc.mk (none : Option String) "A" "no action" 0,
          Arc.mk (some "A") "B" "A->B" 1]) :=
  (print_actions_eq_claimed (Arc.mk (none : Option String) "A" "no action" 0)
    (Arc.mk (some "A") "B" "A->B" 1) []).1

/-- C10: the default `estimated_cost_to_goal` raises
`NotImplementedError` for every node: its result is an error and is
never a numeric estimate. -/
theorem estimated_cost_to_goal_unsupported (g : Graph α) (node : α) (x : Int) :
    g.estimated_cost_to_goal node = Except.error "NotImplementedError" ∧
      g.estimated_cost_to_goal node ≠ Except.ok x := by
  refine ⟨rfl, ?_⟩
  intro h
  simp [Graph.estimated_cost_to_goal] at h

/-- Witness for C10: at a concrete graph and node the default
heuristic is not the estimate `0`. -/
theorem estimated_cost_to_goal_unsupported_witness :
    (Graph.mk ([] : List Nat) (fun _ => false) (fun _ => [])).estimated_cost_to_goal 0 =
        Except.error "NotImplementedError" ∧
      (Graph.mk ([] : List Nat) (fun _ => false) (fun _ => [])).estimated_cost_to_goal 0 ≠
        Except.ok 0 :=
  estimated_cost_to_goal_unsupported _ 0 0

/-- C1: for every graph and every contract-satisfying frontier started
empty, if `generic_search` returns a value other than the no-solution
sentinel, that value is a path whose first arc is the synthetic seed
arc `Arc(None, st, "no action", 0)` for some starting node `st` of the
graph, and whose last arc's head satisfies `is_goal`. -/
theorem generic_search_solution_shape [DecidableEq α] {g : Graph α}
    {F : Frontier α σ} {contents : σ → Multiset (List (Arc α))}
    (L : IsLawfulFrontier F contents) (s₀ : σ) (h₀ : contents s₀ = 0)
    (fuel : Nat) (sol : List (Arc α))
    (h : generic_search g F s₀ fuel = some (some sol)) :
    (∃ st ∈ g.starting_nodes, sol.head? = some (Arc.mk none st "no action" 0)) ∧
      ∃ la, sol.getLast? = some la ∧ g.is_goal la.head = true := by
  refine searchLoop_inv L
    (fun p => ∃ st ∈ g.starting_nodes, p.head? = some (Arc.mk none st "no action" 0))
    ?_ fuel _ sol ?_ h
  · intro p la hp hl a ha
    obtain ⟨st, hst, hh⟩ := hp
    refine ⟨st, hst, ?_⟩
    rw [List.head?_append, hh]
    rfl
  · intro p hp
    rw [contents_addAll L, h₀, add_zero, Multiset.mem_coe, List.mem_map] at hp
    obtain ⟨st, hst, hps⟩ := hp
    exact ⟨st, hst, by rw [← hps]; rfl⟩

/-- Witness for C1: the uniform-cost search on the `{A, B, C}` graph
returns a solution, which therefore starts at a seed arc of a starting
node and ends at a goal. -/
theorem generic_search_solution_shape_witness :
    (∃ st ∈ gABC.toGraph.starting_nodes,
        ([Arc.mk (none : Option String) "A" "no action" 0,
          Arc.mk (some "A") "B" "A->B" 1,
          Arc.mk (some "B") "C" "B->C" 1]).head? =
          some (Arc.mk none st "no action" 0)) ∧
      ∃ la, ([Arc.mk (none : Option String) "A" "no action" 0,
          Arc.mk (some "A") "B" "A->B" 1,
          Arc.mk (some "B") "C" "B->C" 1]).getLast? = some la ∧
        gABC.toGraph.is_goal la.head = true :=
  generic_search_solution_shape cheapestFrontier_lawful [] rfl 10
    [Arc.mk (none : Option String) "A" "no action" 0,
      Arc.mk (some "A") "B" "A->B" 1,
      Arc.mk (some "B") "C" "B->C" 1] (by decide)

/-- C7: on the graph with node set `{A}`, no edges, start `[A]` and
goal `{A}`, `generic_search` with any contract-satisfying frontier
started empty returns the one-arc seed path, whose total cost is 0. -/
theorem generic_search_gA (σ : Type) (F : Frontier String σ)
    (contents : σ → Multiset (List (Arc String))) (L : IsLawfulFrontier F contents)
    (s₀ : σ) (h₀ : contents s₀ = 0) (fuel : Nat) :
    generic_search gA.toGraph F s₀ (fuel + 1) =
        some (some [Arc.mk none "A" "no action" 0]) ∧
      pathCost [Arc.mk (none : Option String) "A" "no action" 0] = 0 := by
  refine ⟨?_, by decide⟩
  unfold generic_search
  have hseeds : gA.toGraph.starting_nodes.map seedPath
      = [[Arc.mk none "A" "no action" 0]] := rfl
  rw [hseeds]
  have hc : contents (addAll F s₀ [[Arc.mk none "A" "no action" 0]])
      = [Arc.mk (none : Option String) "A" "no action" 0] ::ₘ 0 := by
    rw [contents_addAll L, h₀, add_zero]
    rfl
  obtain ⟨p, s', hn⟩ := next_of_contents_ne L _ (by rw [hc]; simp)
  have hp : p = [Arc.mk none "A" "no action" 0] := by
    have := L.next_mem _ _ _ hn
    rw [hc] at this
    simpa using this
  rw [searchLoop, hn, hp]
  rfl

/-- Witness for C7: the uniform-cost frontier instantiates the
statement with one unit of fuel. -/
theorem generic_search_gA_witness :
    generic_search gA.toGraph (cheapestFrontier String) [] 1 =
        some (some [Arc.mk none "A" "no action" 0]) ∧
      pathCost [Arc.mk (none : Option String) "A" "no action" 0] = 0 :=
  generic_search_gA _ (cheapestFrontier String) _ cheapestFrontier_lawful [] rfl 0

/-- C8: for every graph whose starting-node sequence is empty and every
contract-satisfying frontier started empty, `generic_search` returns
the no-solution sentinel at once: nothing is ever added to the
frontier and no node is goal-tested or expanded. -/
theorem generic_search_no_starting_nodes [DecidableEq α] {g : Graph α}
    {F : Frontier α σ} {contents : σ → Multiset (List (Arc α))}
    (L : IsLawfulFrontier F contents) (s₀ : σ) (h₀ : contents s₀ = 0)
    (hs : g.starting_nodes = []) (fuel : Nat) :
    generic_search g F s₀ (fuel + 1) = some none ∧
      (genericSearchT g F s₀ (fuel + 1)).2.1 = [] ∧
      (genericSearchT g F s₀ (fuel + 1)).2.2 = [] := by
  have hnext : F.next s₀ = none := by
    cases hn : F.next s₀ with
    | none => rfl
    | some ps =>
      obtain ⟨p, s'⟩ := ps
      have := L.next_mem _ _ _ hn
      rw [h₀] at this
      exact absurd this (Multiset.not_mem_zero p)
  have haddAll : addAll F s₀ (g.starting_nodes.map seedPath) = s₀ := by
    rw [hs]
    rfl
  refine ⟨?_, ?_, ?_⟩
  · unfold generic_search
    rw [haddAll, searchLoop, hnext]
  · simp [genericSearchT, hs, addAll, searchLoopT, hnext]
  · simp [genericSearchT, hs, addAll, searchLoopT, hnext]

/-- A graph with no starting nodes at all (and no goals, no arcs). -/
def gNoStart : Graph Nat :=
  ⟨[], fun _ => false, fun _ => []⟩

/-- Witness for C8: on a concrete graph with an empty starting-node
sequence the search returns the sentinel without adds or goal tests. -/
theorem generic_search_no_starting_nodes_witness :
    generic_search gNoStart (cheapestFrontier Nat) [] 1 = some none ∧
      (genericSearchT gNoStart (cheapestFrontier Nat) [] 1).2.1 = [] ∧
      (genericSearchT gNoStart (cheapestFrontier Nat) [] 1).2.2 = [] :=
  generic_search_no_starting_nodes cheapestFrontier_lawful [] rfl rfl 0

theorem wellFormedPath_append {p : List (Arc α)} {la a : Arc α}
    (hp : WellFormedPath p) (hl : p.getLast? = some la)
    (ha : a.tail = some la.head) : WellFormedPath (p ++ [a]) := by
  obtain ⟨⟨x, hx, hseed⟩, hchain⟩ := hp
  refine ⟨⟨x, ?_, hseed⟩, ?_⟩
  · rw [List.head?_append, hx]
    rfl
  · rw [List.chain'_append]
    refine ⟨hchain, List.chain'_singleton a, ?_⟩
    intro y hy z hz
    rw [hl] at hy
    rw [Option.mem_def] at hy hz
    cases hy
    cases hz
    exact ha

theorem wellFormedPath_seed (st : α) : WellFormedPath (seedPath st) :=
  ⟨⟨Arc.mk none st "no action" 0, rfl, rfl, rfl, rfl⟩, List.chain'_singleton _⟩

theorem searchLoopT_adds_wellformed [DecidableEq α] {g : Graph α}
    {F : Frontier α σ} {contents : σ → Multiset (List (Arc α))}
    (L : IsLawfulFrontier F contents)
    (htails : ∀ n a, a ∈ g.outgoing_arcs n → a.tail = some n) :
    ∀ (fuel : Nat) (s : σ),
      (∀ p ∈ contents s, WellFormedPath p) →
      ∀ p ∈ (searchLoopT g F fuel s).2.1, WellFormedPath p := by
  intro fuel
  induction fuel with
  | zero =>
    intro s _ p hp
    exact absurd hp (List.not_mem_nil p)
  | succ n ih =>
    intro s hs p hp
    rw [searchLoopT] at hp
    cases hn : F.next s with
    | none =>
      rw [hn] at hp
      exact absurd hp (List.not_mem_nil p)
    | some ps =>
      obtain ⟨q, s'⟩ := ps
      rw [hn] at hp
      simp only [] at hp
      have hqmem : q ∈ contents s := L.next_mem _ _ _ hn
      have hq : WellFormedPath q := hs q hqmem
      cases hl : q.getLast? with
      | none =>
        rw [hl] at hp
        exact absurd hp (List.not_mem_nil p)
      | some la =>
        rw [hl] at hp
        simp only [] at hp
        by_cases hg : g.is_goal la.head = true
        · rw [if_pos hg] at hp
          exact absurd hp (List.not_mem_nil p)
        · rw [if_neg hg] at hp
          have hext : ∀ r ∈ (g.outgoing_arcs la.head).map (fun a => q ++ [a]),
              WellFormedPath r := by
            intro r hr
            rw [List.mem_map] at hr
            obtain ⟨a, ha, hra⟩ := hr
            rw [← hra]
            exact wellFormedPath_append hq hl (by rw [htails la.head a ha])
          rcases List.mem_append.mp hp with hp | hp
          · exact hext p hp
          · refine ih _ ?_ p hp
            intro r hr
            rw [contents_addAll L] at hr
            rcases Multiset.mem_add.mp hr with hr | hr
            · exact hext r (Multiset.mem_coe.mp hr)
            · rw [L.next_spec _ _ _ hn] at hr
              exact hs r (Multiset.mem_of_mem_erase hr)

/-- C4: every path that `generic_search` passes to `frontier.add` is
well-formed (first arc is a seed arc with tail `None`, label
"no action" and cost 0, and adjacent arcs are linked head-to-tail),
for every graph whose `outgoing_arcs n` yields only arcs with tail `n`
and every contract-satisfying frontier started empty. -/
theorem generic_search_adds_wellformed [DecidableEq α] {g : Graph α}
    {F : Frontier α σ} {contents : σ → Multiset (List (Arc α))}
    (L : IsLawfulFrontier F contents) (s₀ : σ) (h₀ : contents s₀ = 0)
    (htails : ∀ n a, a ∈ g.outgoing_arcs n → a.tail = some n) (fuel : Nat) :
    ∀ p ∈ (genericSearchT g F s₀ fuel).2.1, WellFormedPath p := by
  intro p hp
  unfold genericSearchT at hp
  simp only [] at hp
  rcases List.mem_append.mp hp with hp | hp
  · rw [List.mem_map] at hp
    obtain ⟨st, _, hps⟩ := hp
    rw [← hps]
    exact wellFormedPath_seed st
  · refine searchLoopT_adds_wellformed L htails fuel _ ?_ p hp
    intro q hq
    rw [contents_addAll L, h₀, add_zero, Multiset.mem_coe, List.mem_map] at hq
    obtain ⟨st, _, hqs⟩ := hq
    rw [← hqs]
    exact wellFormedPath_seed st

theorem explicitGraph_outgoing_arcs_tail [DecidableEq α] [ToString α]
    (g : ExplicitGraph α) (n : α) (a : Arc α)
    (ha : a ∈ g.toGraph.outgoing_arcs n) : a.tail = some n := by
  have hm : a ∈ g.outgoing_arcs n := ha
  rw [ExplicitGraph.outgoing_arcs, List.mem_filterMap] at hm
  obtain ⟨e, _, he⟩ := hm
  by_cases h : e.tail = n
  · rw [if_pos h] at he
    cases he
    rw [h]
  · rw [if_neg h] at he
    exact absurd he (by simp)

/-- Witness for C4: on the `{A, B, C}` graph with the uniform-cost
frontier, the concrete path `A->B->C` is among the added paths and is
well-formed. -/
theorem generic_search_adds_wellformed_witness :
    WellFormedPath
      [Arc.mk (none : Option String) "A" "no action" 0,
        Arc.mk (some "A") "B" "A->B" 1, Arc.mk (some "B") "C" "B->C" 1] :=
  generic_search_adds_wellformed cheapestFrontier_lawful [] rfl
    (fun n a ha => explicitGraph_outgoing_arcs_tail gABC n a ha) 10
    [Arc.mk (none : Option String) "A" "no action" 0,
      Arc.mk (some "A") "B" "A->B" 1, Arc.mk (some "B") "C" "B->C" 1]
    (by decide)

theorem searchLoop_step {g : Graph α} {F : Frontier α σ} (fuel : Nat) {s s' : σ}
    {p : List (Arc α)} {la : Arc α} (hn : F.next s = some (p, s'))
    (hl : p.getLast? = some la) (hg : g.is_goal la.head = false) :
    searchLoop g F (fuel + 1) s =
      searchLoop g F fuel
        (addAll F s' ((g.outgoing_arcs la.head).map (fun a => p ++ [a]))) := by
  rw [searchLoop, hn]
  simp only [hl, hg, Bool.false_eq_true, if_false]

theorem searchLoop_goal_step {g : Graph α} {F : Frontier α σ} (fuel : Nat) {s s' : σ}
    {p : List (Arc α)} {la : Arc α} (hn : F.next s = some (p, s'))
    (hl : p.getLast? = some la) (hg : g.is_goal la.head = true) :
    searchLoop g F (fuel + 1) s = some (some p) := by
  rw [searchLoop, hn]
  simp only [hl, hg, if_true]

/-- The seed path at `A` and the three candidate paths arising in the
`{A, B, C}` scenario. -/
def pSeedA : List (Arc String) := [⟨none, "A", "no action", 0⟩]

def pAB : List (Arc String) :=
  [⟨none, "A", "no action", 0⟩, ⟨some "A", "B", "A->B", 1⟩]

def pAC : List (Arc String) :=
  [⟨none, "A", "no action", 0⟩, ⟨some "A", "C", "A->C", 5⟩]

def pABC : List (Arc String) :=
  [⟨none, "A", "no action", 0⟩, ⟨some "A", "B", "A->B", 1⟩,
    ⟨some "B", "C", "B->C", 1⟩]

/-- C2: on the `{A, B, C}` graph with edges `(A,B,1)`, `(B,C,1)`,
`(A,C,5)`, start `[A]` and goal `{C}`, `generic_search` with any
contract-satisfying frontier that produces paths in cheapest-first
order returns the path `A->B->C`, whose total cost is 2 (and not the
direct path `A->C` of cost 5). -/
theorem generic_search_gABC_cheapest (σ : Type) (F : Frontier String σ)
    (contents : σ → Multiset (List (Arc String))) (L : IsLawfulFrontier F contents)
    (hcf : ProducesCheapestFirst F contents) (s₀ : σ) (h₀ : contents s₀ = 0)
    (fuel : Nat) :
    generic_search gABC.toGraph F s₀ (fuel + 3) = some (some pABC) ∧
      pathCost pABC = 2 ∧ pABC ≠ pAC := by
  refine ⟨?_, by decide, by decide⟩
  unfold generic_search
  have hseeds : gABC.toGraph.starting_nodes.map seedPath = [pSeedA] := rfl
  rw [hseeds]
  have hc₁ : contents (addAll F s₀ [pSeedA]) = pSeedA ::ₘ 0 := by
    rw [contents_addAll L, h₀, add_zero]
    rfl
  obtain ⟨p₁, s₁', hn₁⟩ := next_of_contents_ne L _ (by rw [hc₁]; simp)
  have hp₁ : p₁ = pSeedA := by
    have := L.next_mem _ _ _ hn₁
    rw [hc₁] at this
    simpa using this
  subst hp₁
  have hc₁' : contents s₁' = 0 := by
    rw [L.next_spec _ _ _ hn₁, hc₁, Multiset.erase_cons_head]
  rw [searchLoop_step (fuel + 2) hn₁
    (show pSeedA.getLast? = some ⟨none, "A", "no action", 0⟩ from rfl)
    (by decide)]
  have harcsA : (gABC.toGraph.outgoing_arcs
      (Arc.mk (none : Option String) "A" "no action" 0).head).map
      (fun a => pSeedA ++ [a]) = [pAB, pAC] := by decide
  rw [harcsA]
  have hc₂ : contents (addAll F s₁' [pAB, pAC]) = pAB ::ₘ pAC ::ₘ 0 := by
    rw [contents_addAll L, hc₁', add_zero]
    rfl
  obtain ⟨p₂, s₂', hn₂⟩ := next_of_contents_ne L _ (by rw [hc₂]; simp)
  have hp₂ : p₂ = pAB := by
    have hmem := L.next_mem _ _ _ hn₂
    rw [hc₂] at hmem
    have hmin := hcf _ _ _ hn₂ pAB (by rw [hc₂]; exact Multiset.mem_cons_self _ _)
    rcases Multiset.mem_cons.mp hmem with h | h
    · exact h
    · have hac : p₂ = pAC := by simpa using h
      rw [hac] at hmin
      exact absurd hmin (by decide)
  subst hp₂
  have hc₂' : contents s₂' = pAC ::ₘ 0 := by
    rw [L.next_spec _ _ _ hn₂, hc₂, Multiset.erase_cons_head]
  rw [searchLoop_step (fuel + 1) hn₂
    (show pAB.getLast? = some ⟨some "A", "B", "A->B", 1⟩ from rfl)
    (by decide)]
  have harcsB : (gABC.toGraph.outgoing_arcs
      (Arc.mk (some "A") "B" "A->B" 1).head).map
      (fun a => pAB ++ [a]) = [pABC] := by decide
  rw [harcsB]
  have hc₃ : contents (addAll F s₂' [pABC]) = pABC ::ₘ pAC ::ₘ 0 := by
    rw [contents_addAll L, hc₂']
    rfl
  obtain ⟨p₃, s₃', hn₃⟩ := next_of_contents_ne L _ (by rw [hc₃]; simp)
  have hp₃ : p₃ = pABC := by
    have hmem := L.next_mem _ _ _ hn₃
    rw [hc₃] at hmem
    have hmin := hcf _ _ _ hn₃ pABC (by rw [hc₃]; exact Multiset.mem_cons_self _ _)
    rcases Multiset.mem_cons.mp hmem with h | h
    · exact h
    · have hac : p₃ = pAC := by simpa using h
      rw [hac] at hmin
      exact absurd hmin (by decide)
  subst hp₃
  exact searchLoop_goal_step fuel hn₃
    (show pABC.getLast? = some ⟨some "B", "C", "B->C", 1⟩ from rfl)
    (by decide)

/-- Witness for C2: the concrete uniform-cost frontier instantiates the
statement. -/
theorem generic_search_gABC_cheapest_witness :
    generic_search gABC.toGraph (cheapestFrontier String) [] 3 = some (some pABC) ∧
      pathCost pABC = 2 ∧ pABC ≠ pAC :=
  generic_search_gABC_cheapest _ (cheapestFrontier String) _
    cheapestFrontier_lawful cheapestFrontier_cheapestFirst [] rfl 0

/-- Reachability in a graph: from a starting node along outgoing
arcs. -/
inductive Reachable (g : Graph α) : α → Prop where
  | start {n : α} : n ∈ g.starting_nodes → Reachable g n
  | step {n : α} {a : Arc α} : Reachable g n → a ∈ g.outgoing_arcs n → Reachable g a.head

/-- Size of the expansion tree below a node, computed with an explicit
recursion bound. -/
def weightAux (g : Graph α) : Nat → α → Nat
  | 0, _ => 1
  | k + 1, n => 1 + ((g.outgoing_arcs n).map (fun a => weightAux g k a.head)).sum

/-- Size of the expansion tree below a node of a finite acyclic graph,
where acyclicity is witnessed by a rank function decreasing along
arcs. -/
def weight (g : Graph α) (rank : α → Nat) (n : α) : Nat :=
  weightAux g (rank n) n

theorem outgoing_arcs_nil_of_rank_zero {g : Graph α} {rank : α → Nat}
    (hr : ∀ n a, a ∈ g.outgoing_arcs n → rank a.head < rank n)
    {n : α} (hn : rank n = 0) : g.outgoing_arcs n = [] := by
  cases ho : g.outgoing_arcs n with
  | nil => rfl
  | cons a l =>
    have := hr n a (by rw [ho]; exact List.mem_cons_self a l)
    omega

theorem weightAux_stable {g : Graph α} {rank : α → Nat}
    (hr : ∀ n a, a ∈ g.outgoing_arcs n → rank a.head < rank n) :
    ∀ (k : Nat) (n : α), rank n ≤ k → weightAux g k n = weightAux g (rank n) n := by
  intro k
  induction k using Nat.strong_induction_on with
  | _ k ih =>
    intro n hn
    cases k with
    | zero =>
      have h0 : rank n = 0 := Nat.le_zero.mp hn
      rw [h0]
    | succ m =>
      cases hrn : rank n with
      | zero =>
        have hout := outgoing_arcs_nil_of_rank_zero hr hrn
        simp [weightAux, hout]
      | succ r =>
        have hmap : ∀ a ∈ g.outgoing_arcs n,
            weightAux g m a.head = weightAux g r a.head := by
          intro a ha
          have h1 : rank a.head < rank n := hr n a ha
          have hm : rank a.head ≤ m := by omega
          have hr2 : rank a.head ≤ r := by omega
          rw [ih m (by omega) a.head hm, ih r (by omega) a.head hr2]
        simp only [weightAux]
        rw [List.map_congr_left hmap]

theorem weight_eq {g : Graph α} {rank : α → Nat}
    (hr : ∀ n a, a ∈ g.outgoing_arcs n → rank a.head < rank n) (n : α) :
    weight g rank n =
      1 + ((g.outgoing_arcs n).map (fun a => weight g rank a.head)).sum := by
  unfold weight
  cases hrn : rank n with
  | zero =>
    have hout := outgoing_arcs_nil_of_rank_zero hr hrn
    simp [weightAux, hout]
  | succ r =>
    have hmap : ∀ a ∈ g.outgoing_arcs n,
        weightAux g r a.head = weightAux g (rank a.head) a.head := by
      intro a ha
      have h1 : rank a.head < rank n := hr n a ha
      exact weightAux_stable hr r a.head (by omega)
    simp only [weightAux]
    rw [List.map_congr_left hmap]

/-- Weight of the node a path currently terminates at (0 for the empty
path, which never occurs in a run). -/
def endWeight (g : Graph α) (rank : α → Nat) (p : List (Arc α)) : Nat :=
  match p.getLast? with
  | some la => weight g rank la.head
  | none => 0

/-- Termination measure of a frontier: total weight of the resident
paths' end nodes. -/
def frontierMeasure (g : Graph α) (rank : α → Nat)
    (c : Multiset (List (Arc α))) : Nat :=
  (c.map (endWeight g rank)).sum

theorem frontierMeasure_coe_add (g : Graph α) (rank : α → Nat)
    (l : List (List (Arc α))) (c : Multiset (List (Arc α))) :
    frontierMeasure g rank (↑l + c) =
      (l.map (endWeight g rank)).sum + frontierMeasure g rank c := by
  simp [frontierMeasure, Multiset.map_add, Multiset.sum_add, Multiset.map_coe,
    Multiset.sum_coe]

theorem frontierMeasure_cons (g : Graph α) (rank : α → Nat)
    (p : List (Arc α)) (c : Multiset (List (Arc α))) :
    frontierMeasure g rank (p ::ₘ c) =
      endWeight g rank p + frontierMeasure g rank c := by
  simp [frontierMeasure, Multiset.map_cons, Multiset.sum_cons]

theorem frontierMeasure_erase [DecidableEq α] (g : Graph α) (rank : α → Nat)
    {c : Multiset (List (Arc α))} {p : List (Arc α)} (hp : p ∈ c) :
    frontierMeasure g rank c =
      endWeight g rank p + frontierMeasure g rank (c.erase p) := by
  conv_lhs => rw [← Multiset.cons_erase hp]
  exact frontierMeasure_cons g rank p (c.erase p)

theorem searchLoop_exhausts [DecidableEq α] {g : Graph α} {F : Frontier α σ}
    {contents : σ → Multiset (List (Arc α))} (L : IsLawfulFrontier F contents)
    (rank : α → Nat)
    (hr : ∀ n a, a ∈ g.outgoing_arcs n → rank a.head < rank n)
    (hng : ∀ n, Reachable g n → g.is_goal n = false) :
    ∀ (fuel : Nat) (s : σ),
      (∀ p ∈ contents s, ∃ la, p.getLast? = some la ∧ Reachable g la.head) →
      frontierMeasure g rank (contents s) < fuel →
      searchLoop g F fuel s = some none := by
  intro fuel
  induction fuel with
  | zero =>
    intro s _ hM
    exact absurd hM (Nat.not_lt_zero _)
  | succ m ih =>
    intro s hinv hM
    cases hn : F.next s with
    | none => rw [searchLoop, hn]
    | some ps =>
      obtain ⟨p, s'⟩ := ps
      have hpmem := L.next_mem _ _ _ hn
      obtain ⟨la, hl, hreach⟩ := hinv p hpmem
      have hg : g.is_goal la.head = false := hng _ hreach
      rw [searchLoop_step m hn hl hg]
      have hinv' : ∀ q ∈ contents (addAll F s'
          ((g.outgoing_arcs la.head).map (fun a => p ++ [a]))),
          ∃ la2, q.getLast? = some la2 ∧ Reachable g la2.head := by
        intro q hq
        rw [contents_addAll L] at hq
        rcases Multiset.mem_add.mp hq with hq | hq
        · rw [Multiset.mem_coe, List.mem_map] at hq
          obtain ⟨a, ha, hqa⟩ := hq
          refine ⟨a, ?_, Reachable.step hreach ha⟩
          rw [← hqa, List.getLast?_concat]
        · rw [L.next_spec _ _ _ hn] at hq
          exact hinv q (Multiset.mem_of_mem_erase hq)
      refine ih _ hinv' ?_
      have hMnew : frontierMeasure g rank (contents (addAll F s'
          ((g.outgoing_arcs la.head).map (fun a => p ++ [a])))) + 1
          = frontierMeasure g rank (contents s) := by
        rw [contents_addAll L, frontierMeasure_coe_add, L.next_spec _ _ _ hn,
          frontierMeasure_erase g rank hpmem]
        have hend : endWeight g rank p = weight g rank la.head := by
          simp [endWeight, hl]
        have hext_sum : (((g.outgoing_arcs la.head).map (fun a => p ++ [a])).map
            (endWeight g rank)).sum
            = ((g.outgoing_arcs la.head).map (fun a => weight g rank a.head)).sum := by
          rw [List.map_map]
          apply congrArg
          apply List.map_congr_left
          intro a _
          simp [Function.comp, endWeight, List.getLast?_concat]
        rw [hend, weight_eq hr la.head, hext_sum]
        omega
      omega

/-- C3: for every finite graph made acyclic by a rank function
decreasing along arcs, in which no reachable node is a goal, and every
contract-satisfying frontier started empty, `generic_search`
terminates normally with the no-solution sentinel. -/
theorem generic_search_no_goal_exhausts [DecidableEq α] {g : Graph α}
    {F : Frontier α σ} {contents : σ → Multiset (List (Arc α))}
    (L : IsLawfulFrontier F contents) (s₀ : σ) (h₀ : contents s₀ = 0)
    (rank : α → Nat)
    (hr : ∀ n a, a ∈ g.outgoing_arcs n → rank a.head < rank n)
    (hng : ∀ n, Reachable g n → g.is_goal n = false) :
    ∃ fuel, generic_search g F s₀ fuel = some none := by
  refine ⟨frontierMeasure g rank
    (contents (addAll F s₀ (g.starting_nodes.map seedPath))) + 1, ?_⟩
  unfold generic_search
  apply searchLoop_exhausts L rank hr hng
  · intro p hp
    rw [contents_addAll L, h₀, add_zero, Multiset.mem_coe, List.mem_map] at hp
    obtain ⟨st, hst, hps⟩ := hp
    refine ⟨Arc.mk none st "no action" 0, ?_, Reachable.start hst⟩
    rw [← hps]
    rfl
  · omega

/-- A one-node graph whose only node is a non-goal dead end. -/
def gDead : Graph Nat :=
  ⟨[0], fun _ => false, fun _ => []⟩

/-- Witness for C3: on a concrete goal-free acyclic graph the search
exhausts and reports no solution. -/
theorem generic_search_no_goal_exhausts_witness :
    ∃ fuel, generic_search gDead (cheapestFrontier Nat) [] fuel = some none :=
  generic_search_no_goal_exhausts cheapestFrontier_lawful [] rfl (fun _ => 0)
    (fun _ a ha => absurd ha (List.not_mem_nil a)) (fun _ _ => rfl)

end AstarSearching
